import Mathlib

/-!
Verification of the PPO training core in `models/ppo.py`.

The advantage estimator (`discount_rewards`, `calc_advantage`), the rollout
collector (`train_batch`), the clipped actor loss (`actor_loss`) and the
advantage normalization in `training_step` are embedded as Lean functions.
Floating-point arithmetic is idealized: list arithmetic over `ℚ` for the
rollout and estimator, over `ℝ` where `exp` and `sqrt` are needed.
-/

namespace PPOSpec

/-- The backward accumulation loop inside `PPO.discount_rewards`:
`sum_r = (sum_r * discount) + r` over the (already reversed) reward list,
collecting each partial sum in order of computation. -/
def discountAux (discount : ℚ) : List ℚ → ℚ → List ℚ
  | [], _ => []
  | r :: rest, sum_r =>
    (sum_r * discount + r) :: discountAux discount rest (sum_r * discount + r)

/-- `PPO.discount_rewards(rewards, discount)`: iterate over `reversed(rewards)`
accumulating `sum_r = sum_r * discount + r`, then reverse the collected list. -/
def discount_rewards (rewards : List ℚ) (discount : ℚ) : List ℚ :=
  (discountAux discount rewards.reverse 0).reverse

theorem discountAux_length (d : ℚ) (xs : List ℚ) (s : ℚ) :
    (discountAux d xs s).length = xs.length := by
  induction xs generalizing s with
  | nil => rfl
  | cons x xs ih => simp [discountAux, ih]

theorem discount_rewards_length (rs : List ℚ) (d : ℚ) :
    (discount_rewards rs d).length = rs.length := by
  simp [discount_rewards, discountAux_length]

theorem discountAux_append (d : ℚ) (xs ys : List ℚ) (s : ℚ) :
    discountAux d (xs ++ ys) s =
      discountAux d xs s ++ discountAux d ys ((discountAux d xs s).getLastD s) := by
  induction xs generalizing s with
  | nil => rfl
  | cons x xs ih =>
      simp only [List.cons_append, discountAux, List.append_eq, ih, List.getLastD_cons]

theorem getLastD_eq_headD_reverse (l : List ℚ) (a : ℚ) :
    l.getLastD a = l.reverse.headD a := by
  induction l generalizing a with
  | nil => rfl
  | cons x xs ih =>
      rw [List.getLastD_cons, ih x, List.reverse_cons]
      cases h : xs.reverse with
      | nil => rfl
      | cons y ys => rfl

/-- Head recursion of `discount_rewards`: the first output entry is the first
reward plus `discount` times the head of the tail's output. -/
theorem discount_rewards_cons (r : ℚ) (rs : List ℚ) (d : ℚ) :
    discount_rewards (r :: rs) d =
      ((discount_rewards rs d).headD 0 * d + r) :: discount_rewards rs d := by
  simp only [discount_rewards, List.reverse_cons]
  rw [discountAux_append]
  simp only [discountAux]
  rw [List.reverse_append, getLastD_eq_headD_reverse]
  rfl

theorem headD_eq_getD_zero (l : List ℚ) : l.headD 0 = l.getD 0 0 := by
  cases l <;> rfl

/-- Index form of the backward recursion, with the entry past the end read
as `0` via `getD`. -/
theorem discount_rewards_getD (rs : List ℚ) (d : ℚ) :
    ∀ t, t < rs.length →
      (discount_rewards rs d).getD t 0 =
        rs.getD t 0 + d * (discount_rewards rs d).getD (t + 1) 0 := by
  induction rs with
  | nil => intro t ht; simp at ht
  | cons r rs ih =>
      intro t ht
      rw [discount_rewards_cons]
      match t with
      | 0 =>
          simp only [List.getD_cons_zero, List.getD_cons_succ, headD_eq_getD_zero]
          ring
      | Nat.succ t' =>
          simp only [List.getD_cons_succ]
          exact ih t' (by simpa using ht)

theorem discount_rewards_zero_discount (rs : List ℚ) :
    discount_rewards rs 0 = rs := by
  induction rs with
  | nil => rfl
  | cons r rs ih => rw [discount_rewards_cons, ih]; simp

theorem discount_rewards_singleton (r : ℚ) (d : ℚ) :
    discount_rewards [r] d = [r] := by
  simp [discount_rewards, discountAux]

/-- C5: for every non-empty rewards list and every discount,
`discount_rewards` returns a list of the same length satisfying the backward
recursion `out[t] = rewards[t] + discount * out[t+1]` (with `out` past the
last element read as 0), zero discount is the identity, a single-element list
is returned unchanged, and `discount_rewards [1,1,1] (1/2) = [7/4, 3/2, 1]`. -/
theorem discount_rewards_spec (rs : List ℚ) (d : ℚ) (hne : rs ≠ []) :
    (discount_rewards rs d).length = rs.length ∧
    (∀ t, t < rs.length →
      (discount_rewards rs d).getD t 0 =
        rs.getD t 0 + d * (discount_rewards rs d).getD (t + 1) 0) ∧
    discount_rewards rs 0 = rs ∧
    (∀ r : ℚ, discount_rewards [r] d = [r]) ∧
    discount_rewards [1, 1, 1] (1 / 2) = [7 / 4, 3 / 2, 1] := by
  refine ⟨discount_rewards_length rs d, discount_rewards_getD rs d,
    discount_rewards_zero_discount rs, fun r => discount_rewards_singleton r d, ?_⟩
  norm_num [discount_rewards, discountAux]

/-- Witness for C5 at `rs = [2, 3]`, `d = 1/2`. -/
theorem discount_rewards_spec_witness :
    ([2, 3] : List ℚ) ≠ [] ∧
    ((discount_rewards [2, 3] (1 / 2)).length = ([2, 3] : List ℚ).length ∧
    (∀ t, t < ([2, 3] : List ℚ).length →
      (discount_rewards [2, 3] (1 / 2)).getD t 0 =
        ([2, 3] : List ℚ).getD t 0 + (1 / 2) * (discount_rewards [2, 3] (1 / 2)).getD (t + 1) 0) ∧
    discount_rewards [2, 3] 0 = [2, 3] ∧
    (∀ r : ℚ, discount_rewards [r] (1 / 2) = [r]) ∧
    discount_rewards [1, 1, 1] (1 / 2) = [7 / 4, 3 / 2, 1]) :=
  ⟨by decide, discount_rewards_spec [2, 3] (1 / 2) (by decide)⟩

/-- `PPO.calc_advantage(rewards, values, last_value)`: append `last_value` to
both the rewards and the values, form the TD residuals
`delta[i] = rews[i] + gamma * vals[i+1] - vals[i]` for `i in range(len(rews)-1)`,
and return `discount_rewards(delta, gamma * lam)`.  `self.gamma` and `self.lam`
are passed explicitly. -/
def calc_advantage (gamma lam : ℚ) (rewards values : List ℚ)
    (last_value : ℚ) : List ℚ :=
  let rews := rewards ++ [last_value]
  let vals := values ++ [last_value]
  let delta := (List.range (rews.length - 1)).map
    (fun i => rews.getD i 0 + gamma * vals.getD (i + 1) 0 - vals.getD i 0)
  discount_rewards delta (gamma * lam)

/-- Structural form of the TD-residual list: for equal-length reward/value
lists, residual `t` reads `values[t+1]`, falling back to the bootstrap value
past the end. -/
def deltaList (gamma : ℚ) : List ℚ → List ℚ → ℚ → List ℚ
  | r :: rs, v :: vs, lv => (r + gamma * vs.headD lv - v) :: deltaList gamma rs vs lv
  | _, _, _ => []

theorem rangeDelta_eq_deltaList (gamma lv : ℚ) (rewards : List ℚ) :
    ∀ values : List ℚ, values.length = rewards.length →
      (List.range ((rewards ++ [lv]).length - 1)).map (fun i =>
        (rewards ++ [lv]).getD i 0 + gamma * (values ++ [lv]).getD (i + 1) 0 -
          (values ++ [lv]).getD i 0) =
      deltaList gamma rewards values lv := by
  induction rewards with
  | nil =>
      intro values h
      cases values with
      | nil => rfl
      | cons v vs => simp at h
  | cons r rs ih =>
      intro values h
      cases values with
      | nil => simp at h
      | cons v vs =>
          have hlen : vs.length = rs.length := by simpa using h
          have hn : ((r :: rs) ++ [lv]).length - 1 = rs.length + 1 := by simp
          rw [hn, List.range_succ_eq_map, List.map_cons, List.map_map]
          simp only [deltaList]
          congr 1
          · simp only [List.cons_append, List.getD_cons_zero, List.getD_cons_succ]
            cases vs with
            | nil => rfl
            | cons v' vs' => rfl
          · have h2 := ih vs hlen
            have hn2 : (rs ++ [lv]).length - 1 = rs.length := by simp
            rw [hn2] at h2
            rw [← h2]
            apply List.map_congr_left
            intro i _
            simp only [Function.comp, List.cons_append, List.getD_cons_succ]

/-- The comprehension over `range(len(rews)-1)` in `calc_advantage` equals the
structural residual list when the rewards and values have equal length. -/
theorem calc_advantage_eq_deltaList (gamma lam : ℚ) (rewards values : List ℚ)
    (lv : ℚ) (h : values.length = rewards.length) :
    calc_advantage gamma lam rewards values lv =
      discount_rewards (deltaList gamma rewards values lv) (gamma * lam) := by
  simp only [calc_advantage]
  rw [rangeDelta_eq_deltaList gamma lv rewards values h]

/-- C4: for every non-empty rewards list and equal-length values list and every
bootstrap value, `calc_advantage` returns
`discount_rewards(delta, gamma * lam)` where
`delta[t] = rewards[t] + gamma * vals[t+1] - vals[t]` over the values sequence
with the bootstrap appended as virtual terminal entry, one advantage per
input reward. -/
theorem calc_advantage_spec (gamma lam : ℚ) (rewards values : List ℚ) (lv : ℚ)
    (hne : rewards ≠ []) (h : values.length = rewards.length) :
    calc_advantage gamma lam rewards values lv =
      discount_rewards
        ((List.range rewards.length).map (fun t =>
          rewards.getD t 0 + gamma * (values ++ [lv]).getD (t + 1) 0 -
            (values ++ [lv]).getD t 0)) (gamma * lam) ∧
    (calc_advantage gamma lam rewards values lv).length = rewards.length := by
  constructor
  · simp only [calc_advantage]
    have hn : (rewards ++ [lv]).length - 1 = rewards.length := by simp
    rw [hn]
    congr 1
    apply List.map_congr_left
    intro i hi
    have hi' : i < rewards.length := List.mem_range.mp hi
    rw [List.getD_append _ _ _ _ hi']
  · simp only [calc_advantage]
    rw [discount_rewards_length]
    simp

/-- Witness for C4 at `rewards = [1, 2]`, `values = [3, 4]`, bootstrap `5`. -/
theorem calc_advantage_spec_witness :
    (([1, 2] : List ℚ) ≠ [] ∧ ([3, 4] : List ℚ).length = ([1, 2] : List ℚ).length) ∧
    (calc_advantage (9 / 10) (1 / 2) [1, 2] [3, 4] 5 =
      discount_rewards
        ((List.range ([1, 2] : List ℚ).length).map (fun t =>
          ([1, 2] : List ℚ).getD t 0 +
            (9 / 10) * (([3, 4] : List ℚ) ++ [5]).getD (t + 1) 0 -
            (([3, 4] : List ℚ) ++ [5]).getD t 0)) ((9 / 10) * (1 / 2)) ∧
    (calc_advantage (9 / 10) (1 / 2) [1, 2] [3, 4] 5).length =
      ([1, 2] : List ℚ).length) :=
  ⟨⟨by decide, by decide⟩,
    calc_advantage_spec (9 / 10) (1 / 2) [1, 2] [3, 4] 5 (by decide) (by decide)⟩

/-- C10: the residuals read only the real-step indices of the appended rewards
list, so the bootstrap entry appended to `rewards` is irrelevant: replacing it
by an arbitrary `x` leaves the output unchanged, and `calc_advantage` equals
the variant that appends the bootstrap only to the values list. -/
theorem calc_advantage_rewards_append_irrelevant (gamma lam : ℚ)
    (rewards values : List ℚ) (lv x : ℚ) (h : values.length = rewards.length) :
    (discount_rewards
      ((List.range ((rewards ++ [x]).length - 1)).map (fun i =>
        (rewards ++ [x]).getD i 0 + gamma * (values ++ [lv]).getD (i + 1) 0 -
          (values ++ [lv]).getD i 0)) (gamma * lam) =
      calc_advantage gamma lam rewards values lv) ∧
    (calc_advantage gamma lam rewards values lv =
      discount_rewards
        ((List.range rewards.length).map (fun i =>
          rewards.getD i 0 + gamma * (values ++ [lv]).getD (i + 1) 0 -
            (values ++ [lv]).getD i 0)) (gamma * lam)) := by
  have hmain : ∀ y : ℚ,
      (List.range ((rewards ++ [y]).length - 1)).map (fun i =>
        (rewards ++ [y]).getD i 0 + gamma * (values ++ [lv]).getD (i + 1) 0 -
          (values ++ [lv]).getD i 0) =
      (List.range rewards.length).map (fun i =>
        rewards.getD i 0 + gamma * (values ++ [lv]).getD (i + 1) 0 -
          (values ++ [lv]).getD i 0) := by
    intro y
    have hlen : (rewards ++ [y]).length - 1 = rewards.length := by simp
    rw [hlen]
    apply List.map_congr_left
    intro i hi
    have hi' : i < rewards.length := List.mem_range.mp hi
    rw [List.getD_append _ _ _ _ hi']
  constructor
  · simp only [calc_advantage]
    rw [hmain x, hmain lv]
  · simp only [calc_advantage]
    rw [hmain lv]

/-- Witness for C10 at `rewards = [1]`, `values = [2]`, bootstrap `3`,
stray appended entry `7`. -/
theorem calc_advantage_rewards_append_irrelevant_witness :
    ([2] : List ℚ).length = ([1] : List ℚ).length ∧
    ((discount_rewards
      ((List.range ((([1] : List ℚ) ++ [7]).length - 1)).map (fun i =>
        (([1] : List ℚ) ++ [7]).getD i 0 +
          (1 / 2) * (([2] : List ℚ) ++ [3]).getD (i + 1) 0 -
          (([2] : List ℚ) ++ [3]).getD i 0)) ((1 / 2) * (1 / 4)) =
      calc_advantage (1 / 2) (1 / 4) [1] [2] 3) ∧
    (calc_advantage (1 / 2) (1 / 4) [1] [2] 3 =
      discount_rewards
        ((List.range ([1] : List ℚ).length).map (fun i =>
          ([1] : List ℚ).getD i 0 +
            (1 / 2) * (([2] : List ℚ) ++ [3]).getD (i + 1) 0 -
            (([2] : List ℚ) ++ [3]).getD i 0)) ((1 / 2) * (1 / 4)))) :=
  ⟨by decide,
    calc_advantage_rewards_append_irrelevant (1 / 2) (1 / 4) [1] [2] 3 7 (by decide)⟩

theorem discount_rewards_headD_sub (gamma : ℚ) (rs vs : List ℚ)
    (h : vs.length = rs.length) :
    (List.zipWith (fun a b => a - b) (discount_rewards rs gamma) vs).headD 0 =
      (discount_rewards rs gamma).headD 0 - vs.headD 0 := by
  cases rs with
  | nil =>
      cases vs with
      | nil => simp [discount_rewards, discountAux]
      | cons v vs => simp at h
  | cons r rs =>
      cases vs with
      | nil => simp at h
      | cons v vs => rw [discount_rewards_cons]; rfl

theorem deltaList_lam_one (gamma : ℚ) (rs : List ℚ) :
    ∀ vs : List ℚ, vs.length = rs.length →
      discount_rewards (deltaList gamma rs vs 0) gamma =
        List.zipWith (fun a b => a - b) (discount_rewards rs gamma) vs := by
  induction rs with
  | nil =>
      intro vs h
      cases vs with
      | nil => rfl
      | cons v vs => simp at h
  | cons r rs ih =>
      intro vs h
      cases vs with
      | nil => simp at h
      | cons v vs' =>
          have hlen : vs'.length = rs.length := by simpa using h
          simp only [deltaList]
          rw [discount_rewards_cons, discount_rewards_cons, ih vs' hlen,
            List.zipWith_cons_cons]
          congr 1
          rw [discount_rewards_headD_sub gamma rs vs' hlen]
          ring

/-- C6: with `lam = 1` and bootstrap value `0`, the GAE advantages are exactly
the elementwise difference between the discounted returns of the rewards and
the value estimates (full-horizon reduction of the GAE recursion). -/
theorem calc_advantage_lam_one (gamma : ℚ) (rewards values : List ℚ)
    (hne : rewards ≠ []) (h : values.length = rewards.length) :
    calc_advantage gamma 1 rewards values 0 =
      List.zipWith (fun a b => a - b) (discount_rewards rewards gamma) values := by
  rw [calc_advantage_eq_deltaList gamma 1 rewards values 0 h, mul_one]
  exact deltaList_lam_one gamma rewards values h

/-- Witness for C6 at `rewards = [1, 2]`, `values = [3, 4]`, `gamma = 1/2`. -/
theorem calc_advantage_lam_one_witness :
    (([1, 2] : List ℚ) ≠ [] ∧ ([3, 4] : List ℚ).length = ([1, 2] : List ℚ).length) ∧
    calc_advantage (1 / 2) 1 [1, 2] [3, 4] 0 =
      List.zipWith (fun a b => a - b) (discount_rewards [1, 2] (1 / 2)) [3, 4] :=
  ⟨⟨by decide, by decide⟩,
    calc_advantage_lam_one (1 / 2) [1, 2] [3, 4] (by decide) (by decide)⟩

/-- Static data of one `PPO` model for the rollout loop of `train_batch`:
hyperparameters, the gym environment (`reset` returns an observation and may
mutate hidden environment state such as its RNG; `step` consumes an action),
and the frozen agent (deterministic action draw, log-probability and critic
value per observation, as in `self.agent(self.state, ...)`). -/
structure PPOCfg where
  gamma : ℚ
  lam : ℚ
  max_episode_len : ℕ
  steps_per_epoch : ℕ
  envReset : ℚ → ℚ × ℚ
  envStep : ℚ → ℚ → ℚ × ℚ × ℚ × Bool
  actionOf : ℚ → ℚ
  logpOf : ℚ → ℚ
  valueOf : ℚ → ℚ

/-- The mutable fields of `PPO` touched by `train_batch`: the accumulation
buffers, the per-episode buffers, the episode step counter, the saved
observation `self.state` and the environment's hidden state. -/
structure PPOState where
  batch_states : List ℚ
  batch_actions : List ℚ
  batch_logp : List ℚ
  batch_qvals : List ℚ
  batch_adv : List ℚ
  ep_rewards : List ℚ
  ep_values : List ℚ
  epoch_rewards : List ℚ
  episode_step : ℕ
  state : ℚ
  env : ℚ
deriving DecidableEq

/-- One iteration of the `for step in range(self.steps_per_epoch)` loop of
`PPO.train_batch`: act, step the environment, append the transition, then on
`epoch_end or done or terminal` compute the bootstrap value, flush qvals and
advantages, log the episode reward and reset the episode buffers, the
environment and `self.state`.  Returns the new state, this step's `done`
flag, and the `steps_before_cutoff` local (threaded from the previous
iterations). -/
def stepOnce (cfg : PPOCfg) (stepIdx : ℕ) (st : PPOState) (sbc : ℕ) :
    PPOState × Bool × ℕ :=
  let a := cfg.actionOf st.state
  let lp := cfg.logpOf st.state
  let v := cfg.valueOf st.state
  let res := cfg.envStep st.env a
  let env1 := res.1
  let next_state := res.2.1
  let reward := res.2.2.1
  let done := res.2.2.2
  let st1 : PPOState := { st with
    episode_step := st.episode_step + 1
    batch_states := st.batch_states ++ [st.state]
    batch_actions := st.batch_actions ++ [a]
    batch_logp := st.batch_logp ++ [lp]
    ep_rewards := st.ep_rewards ++ [reward]
    ep_values := st.ep_values ++ [v]
    state := next_state
    env := env1 }
  if stepIdx = cfg.steps_per_epoch - 1 ∨ done = true ∨
      st1.ep_rewards.length = cfg.max_episode_len then
    let lvs : ℚ × ℕ :=
      if (st1.ep_rewards.length = cfg.max_episode_len ∨
            stepIdx = cfg.steps_per_epoch - 1) ∧ done = false then
        (cfg.valueOf st1.state, st1.episode_step)
      else (0, 0)
    let resetRes := cfg.envReset st1.env
    let st2 : PPOState := { st1 with
      batch_qvals := st1.batch_qvals ++
        (discount_rewards (st1.ep_rewards ++ [lvs.1]) cfg.gamma).dropLast
      batch_adv := st1.batch_adv ++
        calc_advantage cfg.gamma cfg.lam st1.ep_rewards st1.ep_values lvs.1
      epoch_rewards := st1.epoch_rewards ++ [st1.ep_rewards.sum]
      ep_rewards := []
      ep_values := []
      episode_step := 0
      state := resetRes.2
      env := resetRes.1 }
    (st2, done, lvs.2)
  else
    (st1, done, sbc)

/-- Run the loop body of `train_batch` over a list of step indices, threading
the state, the current `done` flag and `steps_before_cutoff`. -/
def runEpochAux (cfg : PPOCfg) : List ℕ → PPOState × Bool × ℕ → PPOState × Bool × ℕ
  | [], acc => acc
  | i :: rest, acc => runEpochAux cfg rest (stepOnce cfg i acc.1 acc.2.2)

/-- The whole rollout loop of `train_batch` for one epoch:
`for step in range(self.steps_per_epoch)`. -/
def runEpoch (cfg : PPOCfg) (st0 : PPOState) : PPOState × Bool × ℕ :=
  runEpochAux cfg (List.range cfg.steps_per_epoch) (st0, false, 0)

/-- What the `if epoch_end:` tail of `train_batch` produces: the yielded
`(state, action, logp_old, qval, adv)` tuples, the three rolling statistics,
and the model state after the buffers are cleared. -/
structure EpochResult where
  transitions : List (ℚ × ℚ × ℚ × ℚ × ℚ)
  avg_step_reward : ℚ
  avg_ep_reward : ℚ
  avg_ep_len : ℚ
  finalState : PPOState
deriving DecidableEq

/-- Python's `zip` over the five accumulation buffers. -/
def zip5 (as bs cs ds es : List ℚ) : List (ℚ × ℚ × ℚ × ℚ × ℚ) :=
  as.zip (bs.zip (cs.zip (ds.zip es)))

/-- One full epoch of `PPO.train_batch`: run `steps_per_epoch` loop
iterations, yield `zip` of the five buffers in recording order, clear the
buffers, and compute `avg_step_reward`, `avg_ep_reward` (excluding the last
episode when the final step's `done` is false) and `avg_ep_len`. -/
def train_batch_epoch (cfg : PPOCfg) (st0 : PPOState) : EpochResult :=
  let r := runEpoch cfg st0
  let st := r.1
  let done := r.2.1
  let sbc := r.2.2
  let kept := if done then st.epoch_rewards else st.epoch_rewards.dropLast
  { transitions :=
      zip5 st.batch_states st.batch_actions st.batch_logp st.batch_qvals st.batch_adv
    avg_step_reward := st.epoch_rewards.sum / (cfg.steps_per_epoch : ℚ)
    avg_ep_reward := kept.sum / (kept.length : ℚ)
    avg_ep_len := ((cfg.steps_per_epoch : ℚ) - (sbc : ℚ)) / (kept.length : ℚ)
    finalState := { st with
      batch_states := []
      batch_actions := []
      batch_adv := []
      batch_logp := []
      batch_qvals := []
      epoch_rewards := [] } }

/-- C1: at every segment close (epoch end, `done`, or reaching
`max_episode_len`), the bootstrap value passed to `calc_advantage` is `0`
exactly when the environment signalled `done` (even if the close coincides
with truncation or epoch end), and otherwise is the critic's estimate at the
post-step observation, before any reset.  (The `torch.no_grad()` context of
the source is outside this arithmetic embedding.) -/
theorem bootstrap_value_spec (cfg : PPOCfg) (st : PPOState) (sbc stepIdx : ℕ)
    (hclose :
      stepIdx = cfg.steps_per_epoch - 1 ∨
      (cfg.envStep st.env (cfg.actionOf st.state)).2.2.2 = true ∨
      st.ep_rewards.length + 1 = cfg.max_episode_len) :
    (stepOnce cfg stepIdx st sbc).1.batch_adv =
      st.batch_adv ++
        calc_advantage cfg.gamma cfg.lam
          (st.ep_rewards ++ [(cfg.envStep st.env (cfg.actionOf st.state)).2.2.1])
          (st.ep_values ++ [cfg.valueOf st.state])
          (if (cfg.envStep st.env (cfg.actionOf st.state)).2.2.2 = true then 0
           else cfg.valueOf (cfg.envStep st.env (cfg.actionOf st.state)).2.1) := by
  simp only [stepOnce]
  by_cases hdone : (cfg.envStep st.env (cfg.actionOf st.state)).2.2.2 = true
  · rw [if_pos (Or.inr (Or.inl hdone))]
    rw [if_neg (by simp [hdone])]
    simp [hdone]
  · have hd : (cfg.envStep st.env (cfg.actionOf st.state)).2.2.2 = false :=
      Bool.eq_false_iff.mpr hdone
    have hor : stepIdx = cfg.steps_per_epoch - 1 ∨
        (st.ep_rewards ++
          [(cfg.envStep st.env (cfg.actionOf st.state)).2.2.1]).length =
          cfg.max_episode_len := by
      rcases hclose with h | h | h
      · exact Or.inl h
      · exact absurd h hdone
      · exact Or.inr (by simpa using h)
    rcases hor with h1 | h2
    · rw [if_pos (Or.inl h1), if_pos ⟨Or.inr h1, hd⟩]
      simp [hd]
    · rw [if_pos (Or.inr (Or.inr h2)), if_pos ⟨Or.inl h2, hd⟩]
      simp [hd]

/-- An agent/environment where the first step terminates naturally. -/
def cfgA : PPOCfg where
  gamma := 1
  lam := 1
  max_episode_len := 3
  steps_per_epoch := 5
  envReset := fun e => (e + 100, 0)
  envStep := fun e _ => (e + 1, e + 1, 1, true)
  actionOf := fun s => s
  logpOf := fun s => s
  valueOf := fun s => s + 7

/-- A fresh model state as set up in `PPO.__init__`. -/
def stA : PPOState where
  batch_states := []
  batch_actions := []
  batch_logp := []
  batch_qvals := []
  batch_adv := []
  ep_rewards := []
  ep_values := []
  epoch_rewards := []
  episode_step := 0
  state := 0
  env := 0

/-- Witness for C1 at a concrete naturally-terminating step. -/
theorem bootstrap_value_spec_witness :
    ((1 : ℕ) = cfgA.steps_per_epoch - 1 ∨
      (cfgA.envStep stA.env (cfgA.actionOf stA.state)).2.2.2 = true ∨
      stA.ep_rewards.length + 1 = cfgA.max_episode_len) ∧
    (stepOnce cfgA 1 stA 0).1.batch_adv =
      stA.batch_adv ++
        calc_advantage cfgA.gamma cfgA.lam
          (stA.ep_rewards ++ [(cfgA.envStep stA.env (cfgA.actionOf stA.state)).2.2.1])
          (stA.ep_values ++ [cfgA.valueOf stA.state])
          (if (cfgA.envStep stA.env (cfgA.actionOf stA.state)).2.2.2 = true then 0
           else cfgA.valueOf (cfgA.envStep stA.env (cfgA.actionOf stA.state)).2.1) :=
  ⟨by decide, bootstrap_value_spec cfgA stA 0 1 (by decide)⟩

/-- C3 amended: at every segment close — including a pure epoch-end cutoff —
`train_batch` resets the environment and `self.state` to the result of
`env.reset()` and clears the episode buffers; the post-step observation does
not persist across the epoch boundary. -/
theorem rollout_resets_on_close (cfg : PPOCfg) (st : PPOState) (sbc stepIdx : ℕ)
    (hclose :
      stepIdx = cfg.steps_per_epoch - 1 ∨
      (cfg.envStep st.env (cfg.actionOf st.state)).2.2.2 = true ∨
      st.ep_rewards.length + 1 = cfg.max_episode_len) :
    (stepOnce cfg stepIdx st sbc).1.state =
      (cfg.envReset (cfg.envStep st.env (cfg.actionOf st.state)).1).2 ∧
    (stepOnce cfg stepIdx st sbc).1.env =
      (cfg.envReset (cfg.envStep st.env (cfg.actionOf st.state)).1).1 ∧
    (stepOnce cfg stepIdx st sbc).1.ep_rewards = [] ∧
    (stepOnce cfg stepIdx st sbc).1.ep_values = [] ∧
    (stepOnce cfg stepIdx st sbc).1.episode_step = 0 := by
  have hC : stepIdx = cfg.steps_per_epoch - 1 ∨
      (cfg.envStep st.env (cfg.actionOf st.state)).2.2.2 = true ∨
      (st.ep_rewards ++
        [(cfg.envStep st.env (cfg.actionOf st.state)).2.2.1]).length =
        cfg.max_episode_len := by
    rcases hclose with h | h | h
    · exact Or.inl h
    · exact Or.inr (Or.inl h)
    · exact Or.inr (Or.inr (by simpa using h))
  simp only [stepOnce]
  split
  · exact ⟨rfl, rfl, rfl, rfl, rfl⟩
  · next h => exact absurd hC h

/-- An environment whose rollout hits a pure epoch-end cutoff at the very
first step: `steps_per_epoch = 1`, no `done`, episode far from
`max_episode_len`. -/
def cfgC : PPOCfg where
  gamma := 1
  lam := 1
  max_episode_len := 5
  steps_per_epoch := 1
  envReset := fun e => (e + 50, 3)
  envStep := fun e _ => (e + 1, 7, 1, false)
  actionOf := fun _ => 0
  logpOf := fun _ => 0
  valueOf := fun _ => 0

/-- Counterexample to C3 as stated: at a pure epoch-end cutoff (final step of
the epoch, `done = false`, episode length below `max_episode_len`) the code
does reset the environment and `self.state`: the saved observation becomes
the `env.reset()` observation `3`, not the post-step observation `7`, and the
hidden environment state becomes `51`, not the post-step value `1`. -/
theorem rollout_cutoff_reset_counterexample :
    (cfgC.envStep stA.env (cfgC.actionOf stA.state)).2.2.2 = false ∧
    stA.ep_rewards.length + 1 ≠ cfgC.max_episode_len ∧
    (cfgC.envStep stA.env (cfgC.actionOf stA.state)).2.1 = 7 ∧
    (cfgC.envStep stA.env (cfgC.actionOf stA.state)).1 = 1 ∧
    (runEpoch cfgC stA).1.state = 3 ∧
    (runEpoch cfgC stA).1.env = 51 ∧
    (3 : ℚ) ≠ 7 ∧ (51 : ℚ) ≠ 1 := by
  refine ⟨rfl, by decide, rfl, by norm_num [cfgC, stA], ?_, ?_, by norm_num, by norm_num⟩
  · norm_num [runEpoch, runEpochAux, stepOnce, cfgC, stA, List.range_succ, List.range_zero]
  · norm_num [runEpoch, runEpochAux, stepOnce, cfgC, stA, List.range_succ, List.range_zero]

/-- Witness for the amended C3 at the same pure-cutoff input. -/
theorem rollout_resets_on_close_witness :
    ((0 : ℕ) = cfgC.steps_per_epoch - 1 ∨
      (cfgC.envStep stA.env (cfgC.actionOf stA.state)).2.2.2 = true ∨
      stA.ep_rewards.length + 1 = cfgC.max_episode_len) ∧
    ((stepOnce cfgC 0 stA 0).1.state =
      (cfgC.envReset (cfgC.envStep stA.env (cfgC.actionOf stA.state)).1).2 ∧
    (stepOnce cfgC 0 stA 0).1.env =
      (cfgC.envReset (cfgC.envStep stA.env (cfgC.actionOf stA.state)).1).1 ∧
    (stepOnce cfgC 0 stA 0).1.ep_rewards = [] ∧
    (stepOnce cfgC 0 stA 0).1.ep_values = [] ∧
    (stepOnce cfgC 0 stA 0).1.episode_step = 0) :=
  ⟨by decide, rollout_resets_on_close cfgC stA 0 0 (by decide)⟩

theorem runEpochAux_append (cfg : PPOCfg) (l : List ℕ) (i : ℕ) :
    ∀ acc : PPOState × Bool × ℕ,
      runEpochAux cfg (l ++ [i]) acc =
        stepOnce cfg i (runEpochAux cfg l acc).1 (runEpochAux cfg l acc).2.2 := by
  induction l with
  | nil => intro acc; rfl
  | cons j rest ih =>
      intro acc
      simp only [List.cons_append, runEpochAux]
      exact ih (stepOnce cfg j acc.1 acc.2.2)

/-- Behaviour of the loop body at the last step index of the epoch
(`epoch_end` holds, so the segment always closes): the episode buffers end
empty, the final episode's reward sum is logged, and `steps_before_cutoff`
is `0` when this step's `done` flag is true and otherwise the incremented
episode step counter, i.e. the closing segment's step count. -/
theorem stepOnce_epoch_end (cfg : PPOCfg) (st : PPOState) (sbc i : ℕ)
    (hi : i = cfg.steps_per_epoch - 1) :
    (stepOnce cfg i st sbc).1.ep_rewards = [] ∧
    (stepOnce cfg i st sbc).1.ep_values = [] ∧
    (stepOnce cfg i st sbc).1.epoch_rewards =
      st.epoch_rewards ++
        [(st.ep_rewards ++ [(cfg.envStep st.env (cfg.actionOf st.state)).2.2.1]).sum] ∧
    ((stepOnce cfg i st sbc).2.1 = true → (stepOnce cfg i st sbc).2.2 = 0) ∧
    (stepOnce cfg i st sbc).2.1 = (cfg.envStep st.env (cfg.actionOf st.state)).2.2.2 ∧
    ((stepOnce cfg i st sbc).2.1 = false →
      (stepOnce cfg i st sbc).2.2 = st.episode_step + 1) := by
  simp only [stepOnce]
  rw [if_pos (Or.inl hi)]
  refine ⟨rfl, rfl, rfl, ?_, rfl, ?_⟩
  · intro hdone
    simp only at hdone ⊢
    rw [if_neg (by simp [hdone])]
  · intro hdone
    simp only at hdone ⊢
    rw [if_pos ⟨Or.inr hi, hdone⟩]

/-- The episode step counter always equals the open episode buffer's length:
both advance together and are zeroed together at a segment close. -/
theorem stepOnce_episode_step (cfg : PPOCfg) (i : ℕ) (st : PPOState) (sbc : ℕ)
    (h : st.episode_step = st.ep_rewards.length) :
    (stepOnce cfg i st sbc).1.episode_step =
      (stepOnce cfg i st sbc).1.ep_rewards.length := by
  simp only [stepOnce]
  split
  · rfl
  · simp [h]

theorem runEpochAux_episode_step (cfg : PPOCfg) (l : List ℕ) :
    ∀ acc : PPOState × Bool × ℕ,
      acc.1.episode_step = acc.1.ep_rewards.length →
      (runEpochAux cfg l acc).1.episode_step =
        (runEpochAux cfg l acc).1.ep_rewards.length := by
  induction l with
  | nil => intro acc h; exact h
  | cons i rest ih =>
      intro acc h
      exact ih (stepOnce cfg i acc.1 acc.2.2)
        (stepOnce_episode_step cfg i acc.1 acc.2.2 h)

/-- The decomposition of one epoch into its first `steps_per_epoch - 1`
iterations followed by the final, always-closing iteration. -/
theorem runEpoch_last_step (cfg : PPOCfg) (st0 : PPOState)
    (h1 : 1 ≤ cfg.steps_per_epoch) :
    runEpoch cfg st0 =
      stepOnce cfg (cfg.steps_per_epoch - 1)
        (runEpochAux cfg (List.range (cfg.steps_per_epoch - 1)) (st0, false, 0)).1
        (runEpochAux cfg (List.range (cfg.steps_per_epoch - 1)) (st0, false, 0)).2.2 := by
  have hrange : List.range cfg.steps_per_epoch =
      List.range (cfg.steps_per_epoch - 1) ++ [cfg.steps_per_epoch - 1] := by
    conv_lhs => rw [← Nat.succ_pred_eq_of_pos h1]
    rw [List.range_succ]
    rfl
  unfold runEpoch
  rw [hrange, runEpochAux_append]

/-- C2 (amended): the rolling statistics of an epoch.  `avg_step_reward`
always divides the sum over all logged episodes (including the final one) by
`steps_per_epoch`, and the final step always flushes the episode buffer.  The
final episode is excluded from `avg_ep_reward` and `avg_ep_len` exactly when
the final step's `done` flag is false — whenever the epoch did not end with a
natural termination, including when the final episode closed by truncation at
`max_episode_len`.  When `done` is true both averages range over all logged
episodes and all `steps_per_epoch` steps; when `done` is false both divide by
the episode count without the final episode, and `avg_ep_len`'s numerator
subtracts the final segment's step count (its open-buffer length before the
final step, plus the final step). -/
theorem epoch_statistics_spec (cfg : PPOCfg) (st0 : PPOState)
    (h1 : 1 ≤ cfg.steps_per_epoch)
    (h0 : st0.episode_step = st0.ep_rewards.length) :
    (train_batch_epoch cfg st0).avg_step_reward =
      (runEpoch cfg st0).1.epoch_rewards.sum / (cfg.steps_per_epoch : ℚ) ∧
    (runEpoch cfg st0).1.ep_rewards = [] ∧
    ((runEpoch cfg st0).2.1 = true →
      (train_batch_epoch cfg st0).avg_ep_reward =
        (runEpoch cfg st0).1.epoch_rewards.sum /
          ((runEpoch cfg st0).1.epoch_rewards.length : ℚ) ∧
      (train_batch_epoch cfg st0).avg_ep_len =
        (cfg.steps_per_epoch : ℚ) /
          ((runEpoch cfg st0).1.epoch_rewards.length : ℚ)) ∧
    ((runEpoch cfg st0).2.1 = false →
      (train_batch_epoch cfg st0).avg_ep_reward =
        (runEpoch cfg st0).1.epoch_rewards.dropLast.sum /
          ((runEpoch cfg st0).1.epoch_rewards.dropLast.length : ℚ) ∧
      (train_batch_epoch cfg st0).avg_ep_len =
        ((cfg.steps_per_epoch : ℚ) -
            (((runEpochAux cfg (List.range (cfg.steps_per_epoch - 1))
                (st0, false, 0)).1.ep_rewards.length + 1 : ℕ) : ℚ)) /
          ((runEpoch cfg st0).1.epoch_rewards.dropLast.length : ℚ)) := by
  have hlast := runEpoch_last_step cfg st0 h1
  have hstep := stepOnce_epoch_end cfg
    (runEpochAux cfg (List.range (cfg.steps_per_epoch - 1)) (st0, false, 0)).1
    (runEpochAux cfg (List.range (cfg.steps_per_epoch - 1)) (st0, false, 0)).2.2
    (cfg.steps_per_epoch - 1) rfl
  refine ⟨rfl, ?_, ?_, ?_⟩
  · rw [hlast]; exact hstep.1
  · intro hdone
    have hsbc : (runEpoch cfg st0).2.2 = 0 := by
      rw [hlast] at hdone ⊢
      exact hstep.2.2.2.1 hdone
    constructor
    · simp only [train_batch_epoch]
      rw [if_pos hdone]
    · simp only [train_batch_epoch]
      rw [if_pos hdone, hsbc]
      norm_num
  · intro hdone
    have hinv : (runEpochAux cfg (List.range (cfg.steps_per_epoch - 1))
          (st0, false, 0)).1.episode_step =
        (runEpochAux cfg (List.range (cfg.steps_per_epoch - 1))
          (st0, false, 0)).1.ep_rewards.length :=
      runEpochAux_episode_step cfg (List.range (cfg.steps_per_epoch - 1))
        (st0, false, 0) h0
    have hsbc : (runEpoch cfg st0).2.2 =
        (runEpochAux cfg (List.range (cfg.steps_per_epoch - 1))
          (st0, false, 0)).1.episode_step + 1 := by
      rw [hlast] at hdone ⊢
      exact hstep.2.2.2.2.2 hdone
    constructor
    · simp only [train_batch_epoch]
      rw [if_neg (by simp [hdone])]
    · simp only [train_batch_epoch]
      rw [if_neg (by simp [hdone]), hsbc, hinv]

/-- An environment whose hidden state counts total steps and pays it out as
the reward (`reward = e`), with observations constantly `0`, never `done`,
and `max_episode_len = 1` so that every step closes an episode by
truncation; `steps_per_epoch = 2`. -/
def cfgB : PPOCfg where
  gamma := 1
  lam := 1
  max_episode_len := 1
  steps_per_epoch := 2
  envReset := fun e => (e, 0)
  envStep := fun e _ => (e + 1, 0, e, false)
  actionOf := fun _ => 0
  logpOf := fun _ => 0
  valueOf := fun _ => 0

/-- Counterexample to C2 as stated: in `cfgB` both episodes of the epoch
close by truncation (`max_episode_len` reached, `done = false`), the second
one coinciding with the epoch end.  The claim says a truncation-closed
episode counts as complete, giving `avg_ep_reward = (0 + 1)/2 = 1/2`; the
code keys the exclusion on `not done` and drops the final episode, giving
`avg_ep_reward = 0`. -/
theorem epoch_statistics_counterexample :
    (runEpochAux cfgB [0] (stA, false, 0)).1.ep_rewards.length + 1 =
      cfgB.max_episode_len ∧
    (runEpoch cfgB stA).2.1 = false ∧
    (runEpoch cfgB stA).1.epoch_rewards = [0, 1] ∧
    (train_batch_epoch cfgB stA).avg_ep_reward = 0 ∧
    ((0 : ℚ) + 1) / 2 = 1 / 2 ∧
    (0 : ℚ) ≠ 1 / 2 := by
  refine ⟨?_, ?_, ?_, ?_, by norm_num, by norm_num⟩
  · norm_num [runEpochAux, stepOnce, cfgB, stA]
  · norm_num [runEpoch, runEpochAux, stepOnce, cfgB, stA,
      List.range_succ, List.range_zero]
  · norm_num [runEpoch, runEpochAux, stepOnce, cfgB, stA,
      List.range_succ, List.range_zero]
  · norm_num [train_batch_epoch, runEpoch, runEpochAux, stepOnce, cfgB, stA,
      List.range_succ, List.range_zero, List.dropLast]

/-- Witness for the amended C2 at input `cfgB`, `stA`. -/
theorem epoch_statistics_spec_witness :
    (1 ≤ cfgB.steps_per_epoch ∧ stA.episode_step = stA.ep_rewards.length) ∧
    ((train_batch_epoch cfgB stA).avg_step_reward =
      (runEpoch cfgB stA).1.epoch_rewards.sum / (cfgB.steps_per_epoch : ℚ) ∧
    (runEpoch cfgB stA).1.ep_rewards = [] ∧
    ((runEpoch cfgB stA).2.1 = true →
      (train_batch_epoch cfgB stA).avg_ep_reward =
        (runEpoch cfgB stA).1.epoch_rewards.sum /
          ((runEpoch cfgB stA).1.epoch_rewards.length : ℚ) ∧
      (train_batch_epoch cfgB stA).avg_ep_len =
        (cfgB.steps_per_epoch : ℚ) /
          ((runEpoch cfgB stA).1.epoch_rewards.length : ℚ)) ∧
    ((runEpoch cfgB stA).2.1 = false →
      (train_batch_epoch cfgB stA).avg_ep_reward =
        (runEpoch cfgB stA).1.epoch_rewards.dropLast.sum /
          ((runEpoch cfgB stA).1.epoch_rewards.dropLast.length : ℚ) ∧
      (train_batch_epoch cfgB stA).avg_ep_len =
        ((cfgB.steps_per_epoch : ℚ) -
            (((runEpochAux cfgB (List.range (cfgB.steps_per_epoch - 1))
                (stA, false, 0)).1.ep_rewards.length + 1 : ℕ) : ℚ)) /
          ((runEpoch cfgB stA).1.epoch_rewards.dropLast.length : ℚ))) :=
  ⟨⟨by decide, rfl⟩, epoch_statistics_spec cfgB stA (by decide) rfl⟩

theorem calc_advantage_length (gamma lam : ℚ) (R V : List ℚ) (lv : ℚ) :
    (calc_advantage gamma lam R V lv).length = R.length := by
  simp only [calc_advantage]
  rw [discount_rewards_length]
  simp

/-- The length bookkeeping of the accumulation buffers after `n` loop
iterations: one state/action/log-prob per step; qvals and advantages cover
every step already flushed at a segment close, the open episode buffer holds
the rest. -/
def buffersLen (st : PPOState) (n : ℕ) : Prop :=
  st.batch_states.length = n ∧ st.batch_actions.length = n ∧
  st.batch_logp.length = n ∧
  st.batch_qvals.length + st.ep_rewards.length = n ∧
  st.batch_adv.length = st.batch_qvals.length ∧
  st.ep_values.length = st.ep_rewards.length

theorem stepOnce_buffersLen (cfg : PPOCfg) (i : ℕ) (st : PPOState) (sbc n : ℕ)
    (h : buffersLen st n) : buffersLen (stepOnce cfg i st sbc).1 (n + 1) := by
  obtain ⟨h1, h2, h3, h4, h5, h6⟩ := h
  simp only [stepOnce]
  split
  · refine ⟨?_, ?_, ?_, ?_, ?_, rfl⟩
    · simpa using h1
    · simpa using h2
    · simpa using h3
    · simp only [List.length_append, List.length_nil, Nat.add_zero,
        List.length_dropLast, discount_rewards_length, List.length_singleton]
      omega
    · simp only [List.length_append, List.length_dropLast,
        discount_rewards_length, calc_advantage_length, List.length_singleton]
      omega
  · refine ⟨?_, ?_, ?_, ?_, h5, ?_⟩
    · simpa using h1
    · simpa using h2
    · simpa using h3
    · simp only [List.length_append, List.length_singleton]
      omega
    · simp only [List.length_append, List.length_singleton]
      omega

theorem runEpochAux_buffersLen (cfg : PPOCfg) (l : List ℕ) :
    ∀ acc : PPOState × Bool × ℕ, ∀ n, buffersLen acc.1 n →
      buffersLen (runEpochAux cfg l acc).1 (n + l.length) := by
  induction l with
  | nil => intro acc n h; simpa using h
  | cons i rest ih =>
      intro acc n h
      simp only [runEpochAux, List.length_cons]
      rw [show n + (rest.length + 1) = (n + 1) + rest.length by omega]
      exact ih (stepOnce cfg i acc.1 acc.2.2) (n + 1)
        (stepOnce_buffersLen cfg i acc.1 acc.2.2 n h)

/-- The state of the accumulation machinery as `PPO.__init__` leaves it:
every buffer empty. -/
def cleanState (st : PPOState) : Prop :=
  st.batch_states = [] ∧ st.batch_actions = [] ∧ st.batch_logp = [] ∧
  st.batch_qvals = [] ∧ st.batch_adv = [] ∧ st.ep_rewards = [] ∧
  st.ep_values = [] ∧ st.epoch_rewards = [] ∧ st.episode_step = 0

theorem runEpoch_buffer_lengths (cfg : PPOCfg) (st0 : PPOState)
    (h1 : 1 ≤ cfg.steps_per_epoch) (h0 : cleanState st0) :
    (runEpoch cfg st0).1.batch_states.length = cfg.steps_per_epoch ∧
    (runEpoch cfg st0).1.batch_actions.length = cfg.steps_per_epoch ∧
    (runEpoch cfg st0).1.batch_logp.length = cfg.steps_per_epoch ∧
    (runEpoch cfg st0).1.batch_qvals.length = cfg.steps_per_epoch ∧
    (runEpoch cfg st0).1.batch_adv.length = cfg.steps_per_epoch := by
  obtain ⟨e1, e2, e3, e4, e5, e6, e7, e8, e9⟩ := h0
  have hbuf : buffersLen (runEpoch cfg st0).1 cfg.steps_per_epoch := by
    have h := runEpochAux_buffersLen cfg (List.range cfg.steps_per_epoch)
      (st0, false, 0) 0 (by
        refine ⟨?_, ?_, ?_, ?_, ?_, ?_⟩ <;> simp [e1, e2, e3, e4, e5, e6, e7])
    simpa [runEpoch] using h
  have hflush : (runEpoch cfg st0).1.ep_rewards = [] := by
    rw [runEpoch_last_step cfg st0 h1]
    exact (stepOnce_epoch_end cfg _ _ _ rfl).1
  obtain ⟨b1, b2, b3, b4, b5, b6⟩ := hbuf
  rw [hflush] at b4
  simp only [List.length_nil, Nat.add_zero] at b4
  exact ⟨b1, b2, b3, b4, by rw [b5, b4]⟩

/-- C8: starting from empty buffers, one epoch of `train_batch` yields
exactly `steps_per_epoch` advantage-annotated transitions — the `zip` of the
five accumulation buffers, whose first components are the visited states in
recording order — and afterwards all accumulation buffers are cleared, so no
transition leaks into the next epoch. -/
theorem train_batch_yield_spec (cfg : PPOCfg) (st0 : PPOState)
    (h1 : 1 ≤ cfg.steps_per_epoch) (h0 : cleanState st0) :
    (train_batch_epoch cfg st0).transitions.length = cfg.steps_per_epoch ∧
    (train_batch_epoch cfg st0).transitions =
      zip5 (runEpoch cfg st0).1.batch_states (runEpoch cfg st0).1.batch_actions
        (runEpoch cfg st0).1.batch_logp (runEpoch cfg st0).1.batch_qvals
        (runEpoch cfg st0).1.batch_adv ∧
    (train_batch_epoch cfg st0).transitions.map Prod.fst =
      (runEpoch cfg st0).1.batch_states ∧
    (train_batch_epoch cfg st0).finalState.batch_states = [] ∧
    (train_batch_epoch cfg st0).finalState.batch_actions = [] ∧
    (train_batch_epoch cfg st0).finalState.batch_logp = [] ∧
    (train_batch_epoch cfg st0).finalState.batch_qvals = [] ∧
    (train_batch_epoch cfg st0).finalState.batch_adv = [] ∧
    (train_batch_epoch cfg st0).finalState.epoch_rewards = [] := by
  obtain ⟨b1, b2, b3, b4, b5⟩ := runEpoch_buffer_lengths cfg st0 h1 h0
  refine ⟨?_, rfl, ?_, rfl, rfl, rfl, rfl, rfl, rfl⟩
  · simp only [train_batch_epoch, zip5, List.length_zip]
    omega
  · simp only [train_batch_epoch, zip5]
    apply List.map_fst_zip
    simp only [List.length_zip]
    omega

/-- Witness for C8 at input `cfgA`, `stA`. -/
theorem train_batch_yield_spec_witness :
    (1 ≤ cfgA.steps_per_epoch ∧ cleanState stA) ∧
    ((train_batch_epoch cfgA stA).transitions.length = cfgA.steps_per_epoch ∧
    (train_batch_epoch cfgA stA).transitions =
      zip5 (runEpoch cfgA stA).1.batch_states (runEpoch cfgA stA).1.batch_actions
        (runEpoch cfgA stA).1.batch_logp (runEpoch cfgA stA).1.batch_qvals
        (runEpoch cfgA stA).1.batch_adv ∧
    (train_batch_epoch cfgA stA).transitions.map Prod.fst =
      (runEpoch cfgA stA).1.batch_states ∧
    (train_batch_epoch cfgA stA).finalState.batch_states = [] ∧
    (train_batch_epoch cfgA stA).finalState.batch_actions = [] ∧
    (train_batch_epoch cfgA stA).finalState.batch_logp = [] ∧
    (train_batch_epoch cfgA stA).finalState.batch_qvals = [] ∧
    (train_batch_epoch cfgA stA).finalState.batch_adv = [] ∧
    (train_batch_epoch cfgA stA).finalState.epoch_rewards = []) :=
  ⟨⟨by decide, ⟨rfl, rfl, rfl, rfl, rfl, rfl, rfl, rfl, rfl⟩⟩,
    train_batch_yield_spec cfgA stA (by decide)
      ⟨rfl, rfl, rfl, rfl, rfl, rfl, rfl, rfl, rfl⟩⟩

noncomputable section

/-- `torch.clamp(x, lo, hi)`. -/
def clamp (x lo hi : ℝ) : ℝ := min (max x lo) hi

/-- `PPO.actor_loss`, with the batch tensors modeled elementwise: the new
log-probabilities `logp` recomputed by the current policy, the stored
`logp_old`, and the (normalized) advantages.  `clip_c` is `self.clip_ratio`;
`ratio = exp(logp - logp_old)`, `clip_adv = clamp(ratio, 1-c, 1+c) * adv`,
and the loss is `-mean(min(ratio * adv, clip_adv))`. -/
def actor_loss (clip_c : ℝ) (logp logp_old adv : List ℝ) : ℝ :=
  let rat := List.zipWith (fun a b => Real.exp (a - b)) logp logp_old
  let clip_adv := List.zipWith
    (fun x y => clamp x (1 - clip_c) (1 + clip_c) * y) rat adv
  let surr := List.zipWith min (List.zipWith (fun x y => x * y) rat adv) clip_adv;
  -(surr.sum / (surr.length : ℝ))

/-- The unclipped surrogate objective `-mean(ratio * adv)`. -/
def actor_loss_unclipped (logp logp_old adv : List ℝ) : ℝ :=
  let rat := List.zipWith (fun a b => Real.exp (a - b)) logp logp_old
  let surr := List.zipWith (fun x y => x * y) rat adv;
  -(surr.sum / (surr.length : ℝ))

theorem zipWith_clamp_eq (c : ℝ) (rat : List ℝ)
    (h : ∀ r ∈ rat, 1 - c ≤ r ∧ r ≤ 1 + c) :
    ∀ adv : List ℝ,
      List.zipWith (fun x y => clamp x (1 - c) (1 + c) * y) rat adv =
        List.zipWith (fun x y => x * y) rat adv := by
  induction rat with
  | nil => intro adv; rfl
  | cons r rs ih =>
      intro adv
      cases adv with
      | nil => rfl
      | cons a as =>
          have hr := h r (List.mem_cons_self r rs)
          have hclamp : clamp r (1 - c) (1 + c) = r := by
            unfold clamp
            rw [max_eq_left hr.1, min_eq_left hr.2]
          simp only [List.zipWith_cons_cons, hclamp]
          rw [ih (fun x hx => h x (List.mem_cons_of_mem r hx)) as]

/-- C7: whenever every element's probability ratio `exp(logp - logp_old)`
lies within `[1 - clip_ratio, 1 + clip_ratio]`, the clipped actor loss equals
the unclipped surrogate loss `-mean(ratio * adv)`. -/
theorem actor_loss_clip_inactive (clip_c : ℝ) (logp logp_old adv : List ℝ)
    (h : ∀ r ∈ List.zipWith (fun a b => Real.exp (a - b)) logp logp_old,
      1 - clip_c ≤ r ∧ r ≤ 1 + clip_c) :
    actor_loss clip_c logp logp_old adv =
      actor_loss_unclipped logp logp_old adv := by
  simp only [actor_loss, actor_loss_unclipped]
  rw [zipWith_clamp_eq clip_c _ h adv, List.zipWith_same]
  simp [min_self]

/-- Witness for C7: a singleton batch with `logp = logp_old`, so the ratio is
`exp 0 = 1`, inside `[1 - 1/5, 1 + 1/5]`. -/
theorem actor_loss_clip_inactive_witness :
    (∀ r ∈ List.zipWith (fun a b => Real.exp (a - b)) [(0 : ℝ)] [(0 : ℝ)],
      1 - (1 / 5 : ℝ) ≤ r ∧ r ≤ 1 + (1 / 5 : ℝ)) ∧
    actor_loss (1 / 5) [0] [0] [1] = actor_loss_unclipped [0] [0] [1] := by
  have hb : ∀ r ∈ List.zipWith (fun a b => Real.exp (a - b)) [(0 : ℝ)] [(0 : ℝ)],
      1 - (1 / 5 : ℝ) ≤ r ∧ r ≤ 1 + (1 / 5 : ℝ) := by
    intro r hr
    simp only [List.zipWith_cons_cons, List.zipWith_nil_left,
      List.mem_singleton] at hr
    subst hr
    rw [sub_zero, Real.exp_zero]
    norm_num
  exact ⟨hb, actor_loss_clip_inactive (1 / 5) [0] [0] [1] hb⟩

/-- `tensor.mean()`: the sum divided by the element count. -/
def meanR (xs : List ℝ) : ℝ := xs.sum / xs.length

/-- `tensor.std()`: Bessel-corrected sample standard deviation
`sqrt(sum((x - mean)^2) / (n - 1))`, as `torch.std` computes it. -/
def stdR (xs : List ℝ) : ℝ :=
  Real.sqrt ((xs.map (fun x => (x - meanR xs) ^ 2)).sum / ((xs.length : ℝ) - 1))

/-- The advantage normalization in `PPO.training_step`:
`adv = (adv - adv.mean()) / adv.std()`. -/
def normalizeAdv (xs : List ℝ) : List ℝ :=
  xs.map (fun x => (x - meanR xs) / stdR xs)

theorem sum_map_sub_div (c d : ℝ) (xs : List ℝ) :
    (xs.map (fun x => (x - c) / d)).sum = (xs.sum - xs.length * c) / d := by
  induction xs with
  | nil => simp
  | cons x rest ih =>
      simp only [List.map_cons, List.sum_cons, ih, div_add_div_same,
        List.length_cons]
      congr 1
      push_cast
      ring

theorem sum_map_div (f : ℝ → ℝ) (d : ℝ) (xs : List ℝ) :
    (xs.map (fun x => f x / d)).sum = (xs.map f).sum / d := by
  induction xs with
  | nil => simp
  | cons x rest ih => simp only [List.map_cons, List.sum_cons, ih, div_add_div_same]

theorem meanR_normalize (xs : List ℝ) (hn : xs.length ≠ 0) :
    meanR (normalizeAdv xs) = 0 := by
  unfold meanR normalizeAdv
  rw [List.length_map, sum_map_sub_div]
  have hcast : (xs.length : ℝ) ≠ 0 := Nat.cast_ne_zero.mpr hn
  have h0 : xs.sum - (xs.length : ℝ) * meanR xs = 0 := by
    unfold meanR
    field_simp
  rw [h0, zero_div, zero_div]

theorem stdR_ne_zero_length (xs : List ℝ) (h : stdR xs ≠ 0) : 2 ≤ xs.length := by
  by_contra hlt
  push_neg at hlt
  rcases xs with _ | ⟨a, _ | ⟨b, t⟩⟩
  · exact h (by simp [stdR, meanR])
  · exact h (by simp [stdR, meanR])
  · simp at hlt
    omega

/-- C9: for every advantage batch with nonzero standard deviation, the
normalized batch `(adv - mean(adv)) / std(adv)` has mean exactly `0` and
standard deviation exactly `1` (in exact real arithmetic). -/
theorem normalizeAdv_spec (xs : List ℝ) (h : stdR xs ≠ 0) :
    meanR (normalizeAdv xs) = 0 ∧ stdR (normalizeAdv xs) = 1 := by
  have hlen2 : 2 ≤ xs.length := stdR_ne_zero_length xs h
  have hn : xs.length ≠ 0 := by omega
  have hmean := meanR_normalize xs hn
  refine ⟨hmean, ?_⟩
  have hVpos : 0 <
      (xs.map (fun x => (x - meanR xs) ^ 2)).sum / ((xs.length : ℝ) - 1) := by
    by_contra hle
    push_neg at hle
    exact h (Real.sqrt_eq_zero'.mpr hle)
  have hsq : stdR xs ^ 2 =
      (xs.map (fun x => (x - meanR xs) ^ 2)).sum / ((xs.length : ℝ) - 1) :=
    Real.sq_sqrt hVpos.le
  conv_lhs => rw [stdR]
  rw [hmean]
  simp only [normalizeAdv, List.length_map, List.map_map, Function.comp_def,
    sub_zero, div_pow]
  rw [sum_map_div (fun x => (x - meanR xs) ^ 2) (stdR xs ^ 2) xs,
    div_right_comm, hsq, div_self hVpos.ne']
  exact Real.sqrt_one

/-- Witness for C9 at the batch `[0, 2]`, whose standard deviation is
`sqrt 2 ≠ 0`. -/
theorem normalizeAdv_spec_witness :
    stdR [0, 2] ≠ 0 ∧
    (meanR (normalizeAdv [0, 2]) = 0 ∧ stdR (normalizeAdv [0, 2]) = 1) := by
  have hstd : stdR [(0 : ℝ), 2] ≠ 0 := by
    have hval : stdR [(0 : ℝ), 2] = Real.sqrt 2 := by
      simp only [stdR, meanR, List.map_cons, List.map_nil, List.sum_cons,
        List.sum_nil, List.length_cons, List.length_nil]
      norm_num
    rw [hval, Real.sqrt_ne_zero']
    norm_num
  exact ⟨hstd, normalizeAdv_spec [0, 2] hstd⟩

end

end PPOSpec
